import Mathlib

/-!
Verification of the signal-result composition core and the typed-routing
core of the `leptos-musings` repository, embedded shallowly in Lean 4.

Part 1 — `SignalResult` (src/signal_result/mod.rs): the tri-state result
of reconciling reactive sources. The Rust type carries a frunk `HList`
bundle; the embedding models the bundle as a `List` over an arbitrary
element type, which preserves the value-level content, ordering and arity
of every claim. Errors are `Vec<AppError>`, modelled as `List AppError`.

Part 2 — typed paths (src/typed_path/app/src/routes/typed_path.rs): the
`Display` implementation of `WithQueryParams` and `TypedPath::to_uri`.
Rendered strings are modelled as `List Char`; the external
`form_urlencoded::Serializer` is embedded by its documented byte-level
algorithm (separator-if-needed fold over `append_pair`).
-/

namespace LeptosMusings

/-- The application error type (`crate::AppError`). Its definition is not
part of the core under study; only the variant used by the repository's
tests is needed, plus a second variant so that distinct errors exist. -/
inductive AppError where
  | PageNotFound
  | InternalServerError
deriving DecidableEq, Repr

/-- `SignalResult` from src/signal_result/mod.rs: the state of an
asynchronous reactive read. `Loading` means the operation is in progress,
`Ok` carries the bundle of successfully retrieved values (a frunk HList in
Rust, a `List α` here), `Err` carries the accumulated `Vec<AppError>`. -/
inductive SignalResult (α : Type) where
  | Loading : SignalResult α
  | Ok : List α → SignalResult α
  | Err : List AppError → SignalResult α
deriving DecidableEq, Repr

/-- The free function `combine` of src/signal_result/mod.rs (lines
234-257). The parameter names `right` and `left` are the source's own
(its first parameter is `self` of the `combine` method, which the source
happens to call `right`). `t.extend(t_other)` on frunk HLists is
positional concatenation, embedded as `List.append`; the
`e.into_iter().chain(e_other).collect()` on error vectors likewise. -/
def combine {α : Type} (right left : SignalResult α) : SignalResult α :=
  match right, left with
  | .Loading, _ => .Loading
  | _, .Loading => .Loading
  | .Ok t, .Ok tOther => .Ok (t ++ tOther)
  | .Err e, .Err eOther => .Err (e ++ eOther)
  | .Ok _, .Err e => .Err e
  | .Err e, .Ok _ => .Err e

/-- The public method `SignalResult::combine` (lines 110-121), which
delegates to the free function with `self` first. -/
def SignalResult.combine {α : Type} (self other : SignalResult α) :
    SignalResult α :=
  LeptosMusings.combine self other

/-- `SignalResult::from_option_result` (lines 152-158): converts the
return value of `Resource::get()` — an `Option<Result<H, AppError>>` —
into a single-element-bundle `SignalResult`. -/
def from_option_result {α : Type} (value : Option (Except AppError α)) :
    SignalResult α :=
  match value with
  | some (.ok t) => .Ok [t]
  | some (.error e) => .Err [e]
  | none => .Loading

/-- `SignalResult::from_result` (lines 182-187): converts the return value
of `Memo::get()` — a `Result<H, AppError>` — into a single-element-bundle
`SignalResult`. -/
def from_result {α : Type} (value : Except AppError α) : SignalResult α :=
  match value with
  | .ok t => .Ok [t]
  | .error e => .Err [e]

/-- `SignalResult::from_option` (lines 205-210): converts an `Option<H>`
into a single-element-bundle `SignalResult`; `None` maps to `Loading`. -/
def from_option {α : Type} (value : Option α) : SignalResult α :=
  match value with
  | some t => .Ok [t]
  | none => .Loading

/-- `leptos::either::EitherOf3`, the three-way view choice returned by the
`signal_result_view!` macro expansion. -/
inductive EitherOf3 (α β γ : Type) where
  | A : α → EitherOf3 α β γ
  | B : β → EitherOf3 α β γ
  | C : γ → EitherOf3 α β γ
deriving DecidableEq, Repr

/-- Which of the three branches an `EitherOf3` value took. -/
def EitherOf3.branchIndex {α β γ : Type} : EitherOf3 α β γ → Nat
  | .A _ => 0
  | .B _ => 1
  | .C _ => 2

/-- The state (constructor) of a `SignalResult`, for stating that branch
selection is a pure function of the state. -/
def SignalResult.stateIndex {α : Type} : SignalResult α → Nat
  | .Ok _ => 0
  | .Err _ => 1
  | .Loading => 2

/-- The body of the `signal_result_view!` macro
(src/signal_result/macros.rs, lines 109-126) after the sources have been
converted and combined into `validate`: match on the combined
`SignalResult` and build exactly one of the three views. In the macro the
`Ok` arm binds the bundle's elements by `hlist_pat!` to the declared
parameter names, in declaration order; here the success view receives the
bundle as a list in that order. -/
def signal_result_view {α A B C : Type} (validate : SignalResult α)
    (ok_view : List α → A) (error_view : List AppError → B)
    (loading_view : C) : EitherOf3 A B C :=
  match validate with
  | .Ok bundle => .A (ok_view bundle)
  | .Err errors => .B (error_view errors)
  | .Loading => .C loading_view

/-- The combination chain the macro expands to for sources `s :: ss`:
`SignalResult::from(first).combine(from(r1)).combine(from(r2))…`, a
left-to-right fold of the method `combine`. -/
def combineChain {α : Type} (s : SignalResult α)
    (ss : List (SignalResult α)) : SignalResult α :=
  List.foldl SignalResult.combine s ss

section SignalResultLemmas

variable {α : Type}

theorem combine_loading_left (x : SignalResult α) :
    combine .Loading x = .Loading := by
  cases x <;> rfl

theorem combine_loading_right (x : SignalResult α) :
    combine x .Loading = .Loading := by
  cases x <;> rfl

/-- Folding `combine` over `Ok` singletons accumulates the values in
order. Shared helper for the chaining claims. -/
theorem foldl_combine_ok_singletons (xs : List α) (l : List α) :
    List.foldl SignalResult.combine (.Ok l)
      (xs.map fun v => SignalResult.Ok [v]) = .Ok (l ++ xs) := by
  induction xs generalizing l with
  | nil => simp
  | cons x xs ih =>
      simp only [List.map_cons, List.foldl_cons]
      rw [show SignalResult.combine (.Ok l) (.Ok [x]) = .Ok (l ++ [x]) from rfl]
      rw [ih]
      simp

/-- Folding `combine` over arbitrary `Ok` bundles concatenates them in
order. Shared helper for the chaining claims. -/
theorem foldl_combine_ok_bundles (ls : List (List α)) (l : List α) :
    List.foldl SignalResult.combine (.Ok l) (ls.map SignalResult.Ok)
      = .Ok (l ++ ls.flatten) := by
  induction ls generalizing l with
  | nil => simp
  | cons m ms ih =>
      simp only [List.map_cons, List.foldl_cons]
      rw [show SignalResult.combine (.Ok l) (.Ok m) = .Ok (l ++ m) from rfl]
      rw [ih]
      simp

/-- The errors carried by a `SignalResult`: an `Ok` operand contributes
the empty list. Used to state the error-concatenation claim. -/
def SignalResult.errList {α : Type} : SignalResult α → List AppError
  | .Loading => []
  | .Ok _ => []
  | .Err e => e

end SignalResultLemmas

section Claims

variable {α : Type}

/-- C1: `combine A B` is `Loading` iff at least one operand is `Loading`;
in particular `Loading` beats `Err` on either side, and a left-to-right
fold whose first source is `Loading` yields `Loading` whatever follows. -/
theorem combine_loading_iff :
    (∀ A B : SignalResult α,
        combine A B = .Loading ↔ A = .Loading ∨ B = .Loading) ∧
    (∀ e : List AppError,
        combine (α := α) .Loading (.Err e) = .Loading ∧
        combine (α := α) (.Err e) .Loading = .Loading) ∧
    (∀ rest : List (SignalResult α),
        combineChain .Loading rest = .Loading) := by
  refine ⟨?_, ?_, ?_⟩
  · intro A B
    cases A <;> cases B <;> simp [combine]
  · intro e
    exact ⟨rfl, rfl⟩
  · intro rest
    induction rest with
    | nil => rfl
    | cons r rs ih =>
        simpa [combineChain, SignalResult.combine,
          combine_loading_left] using ih

/-- C2: combining two `Ok` results yields `Ok` of the left bundle
followed by the right bundle, each element unmodified at its original
relative position; hence a left-to-right fold of `Ok` sources yields the
concatenation of their bundles in source-declaration order. -/
theorem combine_ok_append :
    (∀ a b : List α,
        combine (.Ok a) (.Ok b) = .Ok (a ++ b)) ∧
    (∀ (l : List α) (ls : List (List α)),
        combineChain (.Ok l) (ls.map SignalResult.Ok)
          = .Ok (l ++ ls.flatten)) := by
  exact ⟨fun a b => rfl, fun l ls => foldl_combine_ok_bundles ls l⟩

/-- C3: when neither operand is `Loading` and at least one is `Err`, the
result is `Err` carrying the left operand's errors followed by the right
operand's (an `Ok` operand contributing nothing and its payload being
discarded); its length is the sum of the operands' error counts. -/
theorem combine_err_append (A B : SignalResult α)
    (hA : A ≠ .Loading) (hB : B ≠ .Loading)
    (h : (∃ e, A = .Err e) ∨ ∃ e, B = .Err e) :
    combine A B = .Err (A.errList ++ B.errList) ∧
    (A.errList ++ B.errList).length = A.errList.length + B.errList.length := by
  refine ⟨?_, List.length_append _ _⟩
  cases A with
  | Loading => exact absurd rfl hA
  | Ok a =>
      cases B with
      | Loading => exact absurd rfl hB
      | Ok b =>
          rcases h with ⟨e, he⟩ | ⟨e, he⟩ <;> simp at he
      | Err e => rfl
  | Err e =>
      cases B with
      | Loading => exact absurd rfl hB
      | Ok b => simp [combine, SignalResult.errList]
      | Err f => rfl

/-- C3 witness: `combine (Err [e1]) (Err [e2])` concatenates the two
error lists, at concrete inputs. -/
theorem combine_err_append_witness :
    combine (α := Nat) (.Err [AppError.PageNotFound])
        (.Err [AppError.InternalServerError])
      = .Err [AppError.PageNotFound, AppError.InternalServerError] ∧
    ([AppError.PageNotFound] ++ [AppError.InternalServerError]).length
      = 1 + 1 := by
  have h := combine_err_append (α := Nat)
    (.Err [AppError.PageNotFound]) (.Err [AppError.InternalServerError])
    (by simp) (by simp) (Or.inl ⟨_, rfl⟩)
  exact ⟨h.1, by decide⟩

/-- C4: `combine` is associative — both on the three-way state and, when
the results are `Ok` or `Err`, on the bundle/error contents with their
order preserved (list concatenation being associative); consequently a
chain of `N` `Ok` singleton sources yields an `Ok` bundle of arity `N`
in declaration order under the canonical left fold. -/
theorem combine_assoc :
    (∀ A B C : SignalResult α,
        combine (combine A B) C = combine A (combine B C)) ∧
    (∀ (x : α) (xs : List α),
        combineChain (.Ok [x]) (xs.map fun v => .Ok [v])
          = .Ok (x :: xs) ∧
        (x :: xs).length = xs.length + 1) := by
  constructor
  · intro A B C
    cases A <;> cases B <;> cases C <;> simp [combine]
  · intro x xs
    refine ⟨?_, by simp⟩
    simpa using foldl_combine_ok_singletons xs [x]

/-- C5: `from_option_result` maps `None` to `Loading`, `Some(Err e)` to
`Err [e]`, and `Some(Ok v)` to `Ok` of the singleton bundle `[v]`. -/
theorem from_option_result_spec :
    (from_option_result (α := α) none = .Loading) ∧
    (∀ e : AppError,
        from_option_result (α := α) (some (.error e)) = .Err [e]) ∧
    (∀ v : α, from_option_result (some (.ok v)) = .Ok [v]) := by
  exact ⟨rfl, fun e => rfl, fun v => rfl⟩

/-- C10: `from_option` maps `Some v` to `Ok [v]` and `None` to `Loading`;
no input ever produces an `Err`, so a plain optional source cannot
contribute an error. -/
theorem from_option_spec :
    (∀ v : α, from_option (some v) = .Ok [v]) ∧
    (from_option (α := α) none = .Loading) ∧
    (∀ (o : Option α) (e : List AppError), from_option o ≠ .Err e) := by
  refine ⟨fun v => rfl, rfl, ?_⟩
  intro o e
  cases o <;> simp [from_option]

/-- C6: the `signal_result_view!` dispatch renders exactly one branch as a
pure function of the combined result's state: `Ok` runs the success view
on the whole bundle (for `N` `Ok` singleton sources folded in declaration
order, exactly the `N` unwrapped values in that order), `Err` runs the
error view on the full accumulated error list, and `Loading` runs the
parameterless loading view. -/
theorem signal_result_view_dispatch {A B C : Type}
    (ok_view : List α → A) (error_view : List AppError → B)
    (loading_view : C) :
    (∀ b : List α,
        signal_result_view (.Ok b) ok_view error_view loading_view
          = .A (ok_view b)) ∧
    (∀ e : List AppError,
        signal_result_view (.Err e) ok_view error_view loading_view
          = .B (error_view e)) ∧
    (signal_result_view (.Loading) ok_view error_view loading_view
        = .C loading_view) ∧
    (∀ r : SignalResult α,
        (signal_result_view r ok_view error_view loading_view).branchIndex
          = r.stateIndex) ∧
    (∀ (x : α) (xs : List α),
        signal_result_view
            (combineChain (.Ok [x]) (xs.map fun v => .Ok [v]))
            ok_view error_view loading_view
          = .A (ok_view (x :: xs))) := by
  refine ⟨fun b => rfl, fun e => rfl, rfl, ?_, ?_⟩
  · intro r
    cases r <;> rfl
  · intro x xs
    rw [show combineChain (.Ok [x]) (xs.map fun v => .Ok [v])
          = SignalResult.Ok (x :: xs) by
      simpa using foldl_combine_ok_singletons xs [x]]
    rfl

end Claims

/-! ### Typed paths (src/typed_path/app/src/routes/typed_path.rs) -/

/-- Rendered path strings, modelled as character lists. -/
abbrev Str := List Char

/-- Upper-case hexadecimal digit, as produced by percent-encoding. -/
def hexUpperDigit (n : Nat) : Char :=
  if n < 10 then Char.ofNat (48 + n) else Char.ofNat (55 + n)

/-- The UTF-8 encoding of a character's codepoint, as the byte sequence
the `form_urlencoded` crate iterates over. -/
def utf8Bytes (c : Char) : List Nat :=
  let n := c.toNat
  if n < 128 then [n]
  else if n < 2048 then [192 + n / 64, 128 + n % 64]
  else if n < 65536 then
    [224 + n / 4096, 128 + n / 64 % 64, 128 + n % 64]
  else
    [240 + n / 262144, 128 + n / 4096 % 64, 128 + n / 64 % 64, 128 + n % 64]

/-- One byte of `application/x-www-form-urlencoded` output, as the
external `form_urlencoded` crate's `byte_serialize` produces it: the
space byte becomes `+`, ASCII alphanumerics and `*-._` pass through,
every other byte is percent-encoded as `%XX` with upper-case hex. -/
def formUrlencodeByte (b : Nat) : Str :=
  if b = 32 then ['+']
  else if (48 ≤ b ∧ b ≤ 57) ∨ (65 ≤ b ∧ b ≤ 90) ∨ (97 ≤ b ∧ b ≤ 122)
      ∨ b = 42 ∨ b = 45 ∨ b = 46 ∨ b = 95 then [Char.ofNat b]
  else ['%', hexUpperDigit (b / 16 % 16), hexUpperDigit (b % 16)]

/-- One character of form-urlencoded output: the crate UTF-8-encodes the
string and serializes byte by byte, so a non-ASCII character expands to
one escape per UTF-8 byte. -/
def formUrlencodeChar (c : Char) : Str :=
  ((utf8Bytes c).map formUrlencodeByte).flatten

/-- Form-urlencoding of a whole string. -/
def formUrlencode (s : Str) : Str :=
  (s.map formUrlencodeChar).flatten

/-- One `key=value` pair as `form_urlencoded::Serializer::append_pair`
emits it: encoded key, `=`, encoded value. -/
def encodePair (kv : Str × Str) : Str :=
  formUrlencode kv.1 ++ ['='] ++ formUrlencode kv.2

/-- The `form_urlencoded::Serializer` appending the query pairs into the
target string: the serializer holds a start position and, before each
pair, pushes `&` exactly when the target's length exceeds that position
(`append_separator_if_needed`). `Serializer::new(target)` is
`for_suffix(target, 0)`, so its start position is `0`, not the target's
length at creation. -/
def appendPairs (start : Nat) (target : Str) : List (Str × Str) → Str
  | [] => target
  | kv :: ps =>
      appendPairs start
        ((if start < target.length then target ++ ['&'] else target)
          ++ encodePair kv) ps

/-- The `Display` impl of `WithQueryParams` (typed_path.rs, lines 41-65):
render the base path, append `?` when the rendering does not already
contain one, then run the query object's serialization through
`form_urlencoded::Serializer::new(&mut out)` — a serializer with start
position `0` over the already non-empty string, so every pair, the first
included, is preceded by `&`. A failed serialization panics
(`unwrap_or_else(panic!)`), modelled as `none`; the serialized query
object is modelled by its outcome — the field pairs in serialization
order, or failure. -/
def withQueryParamsFmt (basePath : Str)
    (serialized : Option (List (Str × Str))) : Option Str :=
  let out := if '?' ∈ basePath then basePath else basePath ++ ['?']
  match serialized with
  | none => none
  | some pairs => some (appendPairs 0 out pairs)

/-- `TypedPath::to_uri` (typed_path.rs, lines 18-21): parse the rendered
string into a `http::Uri` and `unwrap`, i.e. panic exactly when parsing
fails. The external URI parser is abstracted as a function into
`Option υ`; the panic is modelled as `none`. -/
def to_uri {υ : Type} (parseUri : Str → Option υ) (rendered : Str) :
    Option υ :=
  match parseUri rendered with
  | some u => some u
  | none => none

/-- Field lookup by capture name in a struct's field list. -/
def lookupField (name : Str) : List (Str × Str) → Option Str
  | [] => none
  | (k, v) :: rest => if k = name then some v else lookupField name rest

/-- Modelled from the spec: the `Display` impl that the `TypedPath`
derive macro generates (the expansion lives in
app-macros/src/typed_path.rs, which is absent from the sources) — literal
segments pass through verbatim and each `:name` capture segment is
substituted with the field of that name, stringified. -/
def renderSegment (fields : List (Str × Str)) (seg : Str) : Str :=
  match seg with
  | ':' :: name => (lookupField name fields).getD (':' :: name)
  | other => other

/-- Modelled from the spec: rendering a declared path pattern — split on
`/`, substitute capture segments, rejoin with `/`. -/
def renderPattern (pattern : Str) (fields : List (Str × Str)) : Str :=
  List.intercalate ['/'] ((pattern.splitOn '/').map (renderSegment fields))

/-- Modelled from the spec: `serde_html_form` serialization of a struct
query object whose fields are string-representable — it yields the
`key=value` field pairs in declaration order and does not fail, also for
a struct with no fields. -/
def serializeStructFields (fields : List (Str × Str)) :
    Option (List (Str × Str)) :=
  some fields

section PathLemmas

theorem encodePair_length_pos (kv : Str × Str) :
    0 < (encodePair kv).length := by
  simp [encodePair]

theorem intercalate_amp_cons (e : Str) (es : List Str) :
    List.intercalate ['&'] (e :: es)
      = e ++ (es.map fun x => '&' :: x).flatten := by
  induction es generalizing e with
  | nil => simp [List.intercalate]
  | cons f fs ih =>
      have h : List.intercalate ['&'] (e :: f :: fs)
          = e ++ ['&'] ++ List.intercalate ['&'] (f :: fs) := by
        simp [List.intercalate, List.intersperse]
      rw [h, ih f]
      simp

theorem appendPairs_of_lt (pairs : List (Str × Str)) :
    ∀ (start : Nat) (acc : Str), start < acc.length →
      appendPairs start acc pairs
        = acc ++ (pairs.map fun kv => '&' :: encodePair kv).flatten := by
  induction pairs with
  | nil => intro start acc _; simp [appendPairs]
  | cons kv ps ih =>
      intro start acc h
      rw [appendPairs, if_pos h]
      rw [ih start (acc ++ ['&'] ++ encodePair kv) (by simp; omega)]
      simp

/-- Prefixing every element with `&` and flattening is `&` followed by
the `&`-joined elements, for a non-empty list. -/
theorem flatten_amp_eq_cons (e : Str) (es : List Str) :
    ((e :: es).map fun x => '&' :: x).flatten
      = '&' :: List.intercalate ['&'] (e :: es) := by
  rw [intercalate_amp_cons]
  simp

/-- The string the serializer is created over — the base path with `?`
appended when absent — is never empty. -/
theorem queryTarget_length_pos (base : Str) :
    0 < (if '?' ∈ base then base else base ++ ['?']).length := by
  by_cases h : '?' ∈ base
  · rw [if_pos h]
    exact List.length_pos.mpr (List.ne_nil_of_mem h)
  · rw [if_neg h]
    simp

theorem mem_flatten_amp (e : Str) (es : List Str) (hm : e ∈ es) :
    ∃ s t, (es.map fun x => '&' :: x).flatten = s ++ (e ++ t) := by
  induction es with
  | nil => cases hm
  | cons f fs ih =>
      rcases List.mem_cons.mp hm with h | h
      · subst h
        exact ⟨['&'], (fs.map fun x => '&' :: x).flatten, by simp⟩
      · obtain ⟨s, t, hs⟩ := ih h
        exact ⟨'&' :: f ++ s, t, by simp [hs]⟩

end PathLemmas

section PathClaims

/-- C7 counterexample: at the base path `/list` with the single field
`a=b` the program renders `/list?&a=b` — the serializer starts at
position `0` over the non-empty target, so a `&` stands between the `?`
and the first pair — and not the claimed base-`?`-pairs concatenation
with nothing between the `?` and the first pair (`/list?a=b`). -/
theorem with_query_params_first_pair_counterexample :
    withQueryParamsFmt "/list".toList (some [("a".toList, "b".toList)])
      = some "/list?&a=b".toList ∧
    withQueryParamsFmt "/list".toList (some [("a".toList, "b".toList)])
      ≠ some ("/list".toList ++ ['?']
          ++ List.intercalate ['&']
            ([("a".toList, "b".toList)].map encodePair)) := by
  constructor <;> decide

/-- C7 (amended): for every base path and every query object with at
least one field, the rendered string is the rendered base path, then a
`?` (appended only when the base rendering does not already contain
one), then each form-urlencoded `key=value` pair of the fields in
serialization order preceded by `&` — so a single `&` stands between the
`?` and the first pair. -/
theorem with_query_params_renders_amp (base : Str)
    (pairs : List (Str × Str)) (hne : pairs ≠ []) :
    withQueryParamsFmt base (some pairs)
      = some ((if '?' ∈ base then base else base ++ ['?'])
          ++ '&' :: List.intercalate ['&'] (pairs.map encodePair)) := by
  obtain ⟨kv, ps, rfl⟩ := List.exists_cons_of_ne_nil hne
  show some (appendPairs 0 _ _) = _
  rw [appendPairs_of_lt (kv :: ps) 0 _ (queryTarget_length_pos base)]
  rw [show ((kv :: ps).map fun p => '&' :: encodePair p)
        = (((kv :: ps).map encodePair).map fun x => '&' :: x) by
      rw [List.map_map]; rfl]
  rw [List.map_cons, flatten_amp_eq_cons]

/-- C7 (amended) witness: the base `/q` with the single field
`k = "v w"` renders to `/q?&k=v+w`. -/
theorem with_query_params_renders_amp_witness :
    withQueryParamsFmt "/q".toList
        (some [("k".toList, "v w".toList)])
      = some "/q?&k=v+w".toList := by
  rw [with_query_params_renders_amp "/q".toList
    [("k".toList, "v w".toList)] (by decide)]
  decide

/-- C8: the path `/help` wrapped with an empty query object renders to
exactly `/help?` — a trailing bare `?` with no pairs after it — and the
serialization of the empty query object succeeds. -/
theorem help_empty_query_renders :
    (serializeStructFields []).isSome = true ∧
    withQueryParamsFmt (renderPattern "/help".toList [])
        (serializeStructFields [])
      = some "/help?".toList := by
  exact ⟨rfl, by decide⟩

/-- C9: encoding failures are fatal at their boundary and never returned
as recoverable values: `to_uri` yields the parsed URI when parsing
succeeds and panics (`none`) exactly when the rendered string is not a
valid URI, and rendering a `WithQueryParams` panics exactly when query
serialization fails; when serialization succeeds, every encoded pair
appears in the output — no query data is silently dropped. -/
theorem encoding_failures_fatal :
    (∀ (υ : Type) (parseUri : Str → Option υ) (rendered : Str) (u : υ),
        parseUri rendered = some u → to_uri parseUri rendered = some u) ∧
    (∀ (υ : Type) (parseUri : Str → Option υ) (rendered : Str),
        to_uri parseUri rendered = none ↔ parseUri rendered = none) ∧
    (∀ base : Str, withQueryParamsFmt base none = none) ∧
    (∀ (base : Str) (pairs : List (Str × Str)) (out : Str),
        withQueryParamsFmt base (some pairs) = some out →
        ∀ kv ∈ pairs, ∃ s t, out = s ++ (encodePair kv ++ t)) := by
  refine ⟨?_, ?_, ?_, ?_⟩
  · intro υ parseUri rendered u h
    simp [to_uri, h]
  · intro υ parseUri rendered
    unfold to_uri
    cases h : parseUri rendered <;> simp
  · intro base
    rfl
  · intro base pairs out hout kv hkv
    have hfmt : out = (if '?' ∈ base then base else base ++ ['?'])
        ++ ((pairs.map encodePair).map fun x => '&' :: x).flatten := by
      have h2 := appendPairs_of_lt pairs 0
        (if '?' ∈ base then base else base ++ ['?'])
        (queryTarget_length_pos base)
      rw [show (pairs.map fun p => '&' :: encodePair p)
            = ((pairs.map encodePair).map fun x => '&' :: x) by
          rw [List.map_map]; rfl] at h2
      unfold withQueryParamsFmt at hout
      simp only at hout
      rw [h2] at hout
      exact (Option.some_injective _ hout).symm
    obtain ⟨s, t, hst⟩ :=
      mem_flatten_amp (encodePair kv) (pairs.map encodePair)
        (List.mem_map_of_mem encodePair hkv)
    exact ⟨(if '?' ∈ base then base else base ++ ['?']) ++ s, t,
      by rw [hfmt, hst]; simp⟩

/-- C9 witness: the theorem applied at concrete inputs — a parser that
succeeds propagates its value through `to_uri`, and the pair `a=b`
appears in the concrete rendering `/p?&a=b`. -/
theorem encoding_failures_fatal_witness :
    to_uri (fun s : Str => some s.length) "/x".toList = some 2 ∧
    ∃ s t, "/p?&a=b".toList
      = s ++ (encodePair ("a".toList, "b".toList) ++ t) := by
  constructor
  · exact encoding_failures_fatal.1 Nat _ "/x".toList 2 rfl
  · exact encoding_failures_fatal.2.2.2 "/p".toList
      [("a".toList, "b".toList)] "/p?&a=b".toList (by decide) _
      (by decide)

end PathClaims

end LeptosMusings
